import Mathlib

/-
Verification of the Vidzaro video-pipeline core against its specification.

The Python source (src/morph-service/main.py, src/wan-service/main.py) is
shallowly embedded below.  Machine floats are idealised as exact rationals
(ℚ); float literals such as 1e-6, 0.7, 0.9 become the rationals
1/1000000, 7/10, 9/10.  Opaque external collaborators (the cosine
similarity over face embeddings, which needs square roots, and
cv2.GaussianBlur) are abstracted as function parameters, so every theorem
about the surrounding code holds for each possible behaviour of the
collaborator.  Python dicts are embedded as insertion-ordered association
lists, matching dict iteration order, which the greedy matching loops
depend on.
-/

namespace Vidzaro

/-! ## Association lists (Python dict, insertion-ordered) -/

/-- Lookup of the first binding of a key, mirroring Python
`d.get(k)` / `d[k]` on a dict represented as an insertion-ordered list. -/
def lookupA {κ α : Type} [DecidableEq κ] : List (κ × α) → κ → Option α
  | [], _ => none
  | (k0, v0) :: t, k => if k0 = k then some v0 else lookupA t k

/-- Python `d[k] = v`: update the existing binding in place, else append. -/
def insertA {κ α : Type} [DecidableEq κ] : List (κ × α) → κ → α → List (κ × α)
  | [], k, v => [(k, v)]
  | (k0, v0) :: t, k, v =>
    if k0 = k then (k0, v) :: t else (k0, v0) :: insertA t k v

theorem lookupA_insertA_self {κ α : Type} [DecidableEq κ]
    (m : List (κ × α)) (k : κ) (v : α) : lookupA (insertA m k v) k = some v := by
  induction m with
  | nil => simp [insertA, lookupA]
  | cons p t ih =>
    by_cases h : p.1 = k
    · simp [insertA, lookupA, h]
    · simp [insertA, lookupA, h, ih]

theorem lookupA_insertA_ne {κ α : Type} [DecidableEq κ]
    (m : List (κ × α)) (k j : κ) (v : α) (h : j ≠ k) :
    lookupA (insertA m k v) j = lookupA m j := by
  have hkj : ¬ k = j := fun hk => h hk.symm
  induction m with
  | nil => simp [insertA, lookupA, hkj]
  | cons p t ih =>
    by_cases hk : p.1 = k
    · have hpj : ¬ p.1 = j := by rw [hk]; exact hkj
      simp [insertA, hk, lookupA, hpj, hkj]
    · simp only [insertA, if_neg hk, lookupA]
      by_cases hj : p.1 = j
      · simp [hj]
      · simp [hj, ih]

theorem mem_insertA {κ α : Type} [DecidableEq κ]
    (m : List (κ × α)) (k : κ) (v : α) (p : κ × α) (hp : p ∈ insertA m k v) :
    p ∈ m ∨ p = (k, v) := by
  induction m with
  | nil => simpa [insertA] using hp
  | cons q t ih =>
    by_cases hq : q.1 = k
    · simp only [insertA, if_pos hq] at hp
      rcases List.mem_cons.mp hp with h | h
      · right; rw [h, Prod.ext_iff]; exact ⟨hq, rfl⟩
      · left; exact List.mem_cons_of_mem _ h
    · simp only [insertA, if_neg hq] at hp
      rcases List.mem_cons.mp hp with h | h
      · left; rw [h]; exact List.mem_cons_self _ _
      · rcases ih h with h' | h'
        · left; exact List.mem_cons_of_mem _ h'
        · right; exact h'

theorem keys_insertA {κ α : Type} [DecidableEq κ]
    (m : List (κ × α)) (k : κ) (v : α) (j : κ)
    (hj : j ∈ (insertA m k v).map Prod.fst) :
    j ∈ m.map Prod.fst ∨ j = k := by
  rcases List.mem_map.mp hj with ⟨p, hp, hpj⟩
  rcases mem_insertA m k v p hp with h | h
  · left; exact List.mem_map.mpr ⟨p, h, hpj⟩
  · right; rw [← hpj, h]

theorem lookupA_mem {κ α : Type} [DecidableEq κ]
    (m : List (κ × α)) (k : κ) (v : α) (h : lookupA m k = some v) :
    (k, v) ∈ m := by
  induction m with
  | nil => simp [lookupA] at h
  | cons p t ih =>
    by_cases hk : p.1 = k
    · simp only [lookupA, if_pos hk, Option.some.injEq] at h
      have : (k, v) = p := by
        rw [Prod.ext_iff]
        exact ⟨hk.symm, h.symm⟩
      rw [this]
      exact List.mem_cons_self _ _
    · simp only [lookupA, if_neg hk] at h
      exact List.mem_cons_of_mem _ (ih h)

theorem lookupA_eq_none {κ α : Type} [DecidableEq κ]
    (m : List (κ × α)) (k : κ) (h : k ∉ m.map Prod.fst) :
    lookupA m k = none := by
  induction m with
  | nil => rfl
  | cons p t ih =>
    simp only [List.map_cons, List.mem_cons, not_or] at h
    have hne : ¬ p.1 = k := fun he => h.1 he.symm
    simp only [lookupA, if_neg hne]
    exact ih h.2

/-! ## Geometry utility: `iou_box` (main.py lines 325–338) -/

/-- IoU of two boxes `[x1,y1,x2,y2]`, embedding `iou_box` from
src/morph-service/main.py.  The Python function unpacks exactly four
coordinates (and raises otherwise); the catch-all branch returning 0 is
never exercised by any theorem below. -/
def iou_box (a b : List ℚ) : ℚ :=
  match a, b with
  | [ax1, ay1, ax2, ay2], [bx1, by1, bx2, by2] =>
    let ix1 := max ax1 bx1
    let iy1 := max ay1 by1
    let ix2 := min ax2 bx2
    let iy2 := min ay2 by2
    if ix2 ≤ ix1 ∨ iy2 ≤ iy1 then 0
    else
      let inter := (ix2 - ix1) * (iy2 - iy1)
      let area_a := (ax2 - ax1) * (ay2 - ay1)
      let area_b := (bx2 - bx1) * (by2 - by1)
      inter / (area_a + area_b - inter + 1 / 1000000)
  | _, _ => 0

/-! ## Identity Track Manager: `assign_track_ids_embedding`
(main.py lines 564–685)

The embedding type `E` and the appearance functions are parameters:
`normf` stands for `normalize_face_embedding` and `sim` for `_cosine_sim`
(both involve floating-point square roots, so every theorem below is
proved for an arbitrary choice).  All other arithmetic is exact ℚ. -/

/-- One detection dict as consumed by `assign_track_ids_embedding`:
keys `bbox`, `embedding`, `quality_score`, each possibly absent. -/
structure Det (E : Type) where
  bbox : Option (List ℚ)
  embedding : Option E
  quality_score : Option ℚ

/-- One output detection: the input dict minus `embedding` and
`quality_score`, plus the assigned `trackId`. -/
structure OutDet where
  bbox : List ℚ
  trackId : ℕ
deriving DecidableEq

/-- The mutable state of one tracking session: `next_id`,
`track_embeddings`, `track_bbox`, `track_quality_scores`. -/
structure TState (E : Type) where
  next_id : ℕ
  track_embeddings : List (ℕ × List E)
  track_bbox : List (ℕ × List ℚ)
  track_quality_scores : List (ℕ × ℚ)

def initTState (E : Type) : TState E := ⟨0, [], [], []⟩

/-- Face area used by the sort key:
`(bbox[2]-bbox[0]) * (bbox[3]-bbox[1])` with `d.get("bbox", [0,0,0,0])`. -/
def bboxArea (l : List ℚ) : ℚ :=
  (l.getD 2 0 - l.getD 0 0) * (l.getD 3 0 - l.getD 1 0)

/-- Sort key of a detection:
`(d.get("embedding") is not None, d.get("quality_score", 0.0), faceArea)`. -/
def detSortKey {E : Type} (d : Det E) : Bool × ℚ × ℚ :=
  (d.embedding.isSome, d.quality_score.getD 0, bboxArea (d.bbox.getD [0, 0, 0, 0]))

/-- Strict lexicographic comparison of sort keys (`False < True` on the
first component, as in Python tuple comparison). -/
def keyLt (a b : Bool × ℚ × ℚ) : Bool :=
  (!a.1 && b.1) ||
    (a.1 == b.1 &&
      (decide (a.2.1 < b.2.1) ||
        (decide (a.2.1 = b.2.1) && decide (a.2.2 < b.2.2))))

/-- Insert into a descending-sorted list, keeping earlier elements of
equal key first, as Python's stable `sorted(..., reverse=True)` does. -/
def insertDesc {E : Type} (d : Det E) : List (Det E) → List (Det E)
  | [] => [d]
  | e :: t =>
    if keyLt (detSortKey d) (detSortKey e) then e :: insertDesc d t
    else d :: e :: t

/-- Stable descending sort of a frame's detections, the semantics of
`sorted(frame_dets, key=..., reverse=True)`. -/
def sortDescDets {E : Type} : List (Det E) → List (Det E)
  | [] => []
  | d :: t => insertDesc d (sortDescDets t)

/-- Python `max(l)` guarded by `if l else 0.0`. -/
def listMaxD (l : List ℚ) : ℚ :=
  match l with
  | [] => 0
  | h :: t => t.foldl max h

/-- Python `np.mean(l)` guarded by `if l else 0.0`. -/
def listMean (l : List ℚ) : ℚ :=
  match l with
  | [] => 0
  | _ => l.sum / l.length

/-- One iteration of the greedy arg-max loops: skip tracks already used
in this frame, keep the best strictly-improving score. -/
def argmaxStep {β : Type} (used : List ℕ) (score : ℕ × β → ℚ)
    (acc : Option ℕ × ℚ) (p : ℕ × β) : Option ℕ × ℚ :=
  if p.1 ∈ used then acc
  else if acc.2 < score p then (some p.1, score p) else acc

/-- Score of one candidate track in the embedding-matching loop:
`0.7*max_sim + 0.3*avg_sim + 0.1*track_quality` (lines 601–615). -/
def embScore {E : Type} (sim : E → E → ℚ) (tqs : List (ℕ × ℚ)) (ne : E)
    (p : ℕ × List E) : ℚ :=
  let sims := p.2.map (fun e => sim ne e)
  let max_sim := listMaxD sims
  let avg_sim := listMean sims
  let combined_sim := 7 / 10 * max_sim + 3 / 10 * avg_sim
  let quality_bonus := (lookupA tqs p.1).getD 0 * (1 / 10)
  combined_sim + quality_bonus

/-- Score of one candidate track in the IoU fallback loop:
`iou * (0.5 + 0.5*size_ratio)` (lines 624–636). -/
def iouScore (bbox : List ℚ) (p : ℕ × List ℚ) : ℚ :=
  let iou := iou_box bbox p.2
  let prev_area := (p.2.getD 2 0 - p.2.getD 0 0) * (p.2.getD 3 0 - p.2.getD 1 0)
  let curr_area := (bbox.getD 2 0 - bbox.getD 0 0) * (bbox.getD 3 0 - bbox.getD 1 0)
  let szr := min curr_area prev_area / (max curr_area prev_area + 1 / 1000000)
  iou * (1 / 2 + 1 / 2 * szr)

/-- Gallery update with novelty control (lines 654–662): append the new
embedding only if no stored embedding is more than 0.9-similar and the
gallery holds fewer than `MAX_EMBEDDINGS_PER_TRACK = 8` vectors. -/
def updateGallery {E : Type} (sim : E → E → ℚ) (ne : E) (cur : List E) :
    List E :=
  let should_add := cur.all (fun e => !decide (9 / 10 < sim ne e))
  if should_add && decide (cur.length < 8) then cur ++ [ne] else cur

/-- State mutation after a detection has claimed track `tid`
(lines 649–671): gallery and quality-score update when an embedding is
present, then `track_bbox[tid] = bbox`. -/
def commitDet {E : Type} (sim : E → E → ℚ) (det : Det E) (bbox : List ℚ)
    (ne? : Option E) (tid : ℕ) (st : TState E) : TState E :=
  let st1 :=
    match ne? with
    | none => st
    | some ne =>
      let te0 := st.track_embeddings
      let te1 := if (lookupA te0 tid).isSome then te0 else insertA te0 tid []
      let cur := (lookupA te1 tid).getD []
      let te2 := insertA te1 tid (updateGallery sim ne cur)
      let q := det.quality_score.getD (1 / 2)
      let tqs1 :=
        match lookupA st.track_quality_scores tid with
        | some old => insertA st.track_quality_scores tid (4 / 5 * old + 1 / 5 * q)
        | none => insertA st.track_quality_scores tid q
      { st with track_embeddings := te2, track_quality_scores := tqs1 }
  { st1 with track_bbox := insertA st1.track_bbox tid bbox }

/-- Per-frame fold accumulator: session state, ids already used in this
frame, and the output detections built so far. -/
structure FrameAcc (E : Type) where
  st : TState E
  used : List ℕ
  outDets : List OutDet

/-- Track selection for one detection (lines 593–640): the embedding
matching loop over `track_embeddings` starting at `best_score =
sim_thresh`, then — only when it found nothing and `track_bbox` is
non-empty — the IoU fallback loop starting at `best_iou = 0.4`. -/
def chooseTrack {E : Type} (sim : E → E → ℚ) (sim_thresh : ℚ)
    (st : TState E) (used : List ℕ) (ne? : Option E) (bbox : List ℚ) :
    Option ℕ :=
  let b1 : Option ℕ × ℚ :=
    match ne? with
    | some ne =>
      st.track_embeddings.foldl
        (argmaxStep used (embScore sim st.track_quality_scores ne))
        (none, sim_thresh)
    | none => (none, sim_thresh)
  match b1.1 with
  | some t => some t
  | none =>
    match st.track_bbox with
    | [] => none
    | _ =>
      (st.track_bbox.foldl (argmaxStep used (iouScore bbox)) (none, 2 / 5)).1

/-- If no track matched, allocate the next session id and initialise its
quality score to 0.0 (lines 642–645); otherwise keep the matched id. -/
def allocIfNew {E : Type} (st : TState E) : Option ℕ → ℕ × TState E
  | some t => (t, st)
  | none =>
    (st.next_id,
      { st with
        next_id := st.next_id + 1,
        track_quality_scores := insertA st.track_quality_scores st.next_id 0 })

/-- Processing of one detection (body of the `for det in sorted_dets`
loop, lines 588–673).  A detection without a well-formed 4-element bbox
is skipped (`continue`). -/
def processDet {E : Type} (normf : E → E) (sim : E → E → ℚ) (sim_thresh : ℚ)
    (acc : FrameAcc E) (det : Det E) : FrameAcc E :=
  match det.bbox with
  | none => acc
  | some bbox =>
    if bbox.length = 4 then
      let ne? := det.embedding.map normf
      let r := allocIfNew acc.st
        (chooseTrack sim sim_thresh acc.st acc.used ne? bbox)
      { st := commitDet sim det bbox ne? r.1 r.2,
        used := r.1 :: acc.used,
        outDets := acc.outDets ++ [⟨bbox, r.1⟩] }
    else acc

/-- Processing of one frame (lines 576–675): sort, then greedily assign
each detection. -/
def processFrame {E : Type} (normf : E → E) (sim : E → E → ℚ)
    (sim_thresh : ℚ) (st : TState E) (dets : List (Det E)) :
    TState E × List OutDet :=
  let acc := (sortDescDets dets).foldl (processDet normf sim sim_thresh)
    ⟨st, [], []⟩
  (acc.st, acc.outDets)

/-- Frame loop of `assign_track_ids_embedding`. -/
def assignFrames {E : Type} (normf : E → E) (sim : E → E → ℚ)
    (sim_thresh : ℚ) : TState E → List (List (Det E)) →
    TState E × List (List OutDet)
  | st, [] => (st, [])
  | st, f :: fs =>
    let r1 := processFrame normf sim sim_thresh st f
    let r2 := assignFrames normf sim sim_thresh r1.1 fs
    (r2.1, r1.2 :: r2.2)

/-- Full session starting from the empty state. -/
def assignCore {E : Type} (normf : E → E) (sim : E → E → ℚ) (sim_thresh : ℚ)
    (frames : List (List (Det E))) : TState E × List (List OutDet) :=
  assignFrames normf sim sim_thresh (initTState E) frames

/-- `assign_track_ids_embedding(detections_per_frame, sim_thresh)`:
returns the annotated frames and, per track, the first stored embedding
as representative (lines 677–685).  The default threshold is
`QUALITY_THRESHOLD = 0.6`. -/
def assign_track_ids_embedding {E : Type} (normf : E → E)
    (sim : E → E → ℚ) (frames : List (List (Det E)))
    (sim_thresh : ℚ := 3 / 5) : List (List OutDet) × List (ℕ × E) :=
  let r := assignCore normf sim sim_thresh frames
  (r.2, r.1.track_embeddings.filterMap
    (fun p => p.2.head?.map (fun h => (p.1, h))))

/-! ## Structural lemmas about the tracker -/

/-- A detection dict the Python loop does not `continue` over: a `bbox`
key holding a 4-element list. -/
def validDet {E : Type} (d : Det E) : Bool :=
  match d.bbox with
  | some l => l.length == 4
  | none => false

theorem mem_insertDesc {E : Type} (d x : Det E) (l : List (Det E)) :
    x ∈ insertDesc d l ↔ x = d ∨ x ∈ l := by
  induction l with
  | nil => simp [insertDesc]
  | cons e t ih =>
    by_cases hk : keyLt (detSortKey d) (detSortKey e) = true
    · simp only [insertDesc, if_pos hk, List.mem_cons, ih]
      tauto
    · simp only [insertDesc, if_neg hk, List.mem_cons]

theorem length_insertDesc {E : Type} (d : Det E) (l : List (Det E)) :
    (insertDesc d l).length = l.length + 1 := by
  induction l with
  | nil => rfl
  | cons e t ih =>
    by_cases hk : keyLt (detSortKey d) (detSortKey e) = true
    · simp [insertDesc, if_pos hk, ih]
    · simp [insertDesc, if_neg hk]

theorem mem_sortDescDets {E : Type} (x : Det E) (l : List (Det E)) :
    x ∈ sortDescDets l ↔ x ∈ l := by
  induction l with
  | nil => simp [sortDescDets]
  | cons d t ih => simp [sortDescDets, mem_insertDesc, ih]

theorem length_sortDescDets {E : Type} (l : List (Det E)) :
    (sortDescDets l).length = l.length := by
  induction l with
  | nil => rfl
  | cons d t ih => simp [sortDescDets, length_insertDesc, ih]

/-- Every id the greedy arg-max loop can return comes from the iterated
association list and was not yet used in this frame. -/
theorem foldl_argmaxStep_some {β : Type} (used : List ℕ)
    (score : ℕ × β → ℚ) (l : List (ℕ × β)) :
    ∀ (acc : Option ℕ × ℚ) (t : ℕ),
    (l.foldl (argmaxStep used score) acc).1 = some t →
    acc.1 = some t ∨ (t ∈ l.map Prod.fst ∧ t ∉ used) := by
  induction l with
  | nil => intro acc t h; exact Or.inl h
  | cons p l' ih =>
    intro acc t h
    rw [List.foldl_cons] at h
    rcases ih _ t h with h1 | h1
    · by_cases hu : p.1 ∈ used
      · rw [argmaxStep, if_pos hu] at h1
        exact Or.inl h1
      · rw [argmaxStep, if_neg hu] at h1
        by_cases hs : acc.2 < score p
        · rw [if_pos hs] at h1
          have hpt : p.1 = t := Option.some.inj h1
          right
          refine ⟨?_, hpt ▸ hu⟩
          rw [List.map_cons]
          exact hpt ▸ List.mem_cons_self _ _
        · rw [if_neg hs] at h1
          exact Or.inl h1
    · right
      exact ⟨List.map_cons _ p l' ▸ List.mem_cons_of_mem _ h1.1, h1.2⟩

/-- Session-state invariant: every live track id, in any of the three
per-track maps, is below the id counter. -/
def StBound {E : Type} (st : TState E) : Prop :=
  (∀ k ∈ st.track_embeddings.map Prod.fst, k < st.next_id) ∧
  (∀ k ∈ st.track_bbox.map Prod.fst, k < st.next_id) ∧
  (∀ k ∈ st.track_quality_scores.map Prod.fst, k < st.next_id)

/-- A matched track id is a live key not yet used in this frame. -/
theorem chooseTrack_some {E : Type} (sim : E → E → ℚ) (th : ℚ)
    (st : TState E) (used : List ℕ) (ne? : Option E) (bbox : List ℚ)
    (t : ℕ) (h : chooseTrack sim th st used ne? bbox = some t) :
    (t ∈ st.track_embeddings.map Prod.fst ∨ t ∈ st.track_bbox.map Prod.fst) ∧
      t ∉ used := by
  simp only [chooseTrack] at h
  rcases hne : ne? with _ | ne
  all_goals rw [hne] at h; simp only at h
  case none =>
    rcases htb : st.track_bbox with _ | ⟨p, tb⟩
    · rw [htb] at h; simp at h
    · rw [htb] at h
      simp only at h
      rcases foldl_argmaxStep_some used (iouScore bbox) _ _ t h with h1 | h1
      · simp at h1
      · exact ⟨Or.inr h1.1, h1.2⟩
  case some =>
    rcases hf : (st.track_embeddings.foldl
        (argmaxStep used (embScore sim st.track_quality_scores ne))
        (none, th)).1 with _ | t1
    · rw [hf] at h
      simp only at h
      rcases htb : st.track_bbox with _ | ⟨p, tb⟩
      · rw [htb] at h; simp at h
      · rw [htb] at h
        simp only at h
        rcases foldl_argmaxStep_some used (iouScore bbox) _ _ t h with h1 | h1
        · simp at h1
        · exact ⟨Or.inr h1.1, h1.2⟩
    · rw [hf] at h
      simp only [Option.some.injEq] at h
      subst h
      rcases foldl_argmaxStep_some used _ _ _ t1 hf with h1 | h1
      · simp at h1
      · exact ⟨Or.inl h1.1, h1.2⟩

theorem next_id_commitDet {E : Type} (sim : E → E → ℚ) (det : Det E)
    (bbox : List ℚ) (ne? : Option E) (tid : ℕ) (st : TState E) :
    (commitDet sim det bbox ne? tid st).next_id = st.next_id := by
  rcases ne? with _ | ne <;> simp [commitDet]

theorem te_keys_commitDet {E : Type} (sim : E → E → ℚ) (det : Det E)
    (bbox : List ℚ) (ne? : Option E) (tid : ℕ) (st : TState E) (k : ℕ)
    (hk : k ∈ (commitDet sim det bbox ne? tid st).track_embeddings.map
      Prod.fst) :
    k ∈ st.track_embeddings.map Prod.fst ∨ k = tid := by
  rcases ne? with _ | ne
  · exact Or.inl (by simpa [commitDet] using hk)
  · simp only [commitDet] at hk
    rcases keys_insertA _ _ _ _ hk with h' | h'
    · by_cases hl : (lookupA st.track_embeddings tid).isSome
      · rw [if_pos hl] at h'
        exact Or.inl h'
      · rw [if_neg hl] at h'
        rcases keys_insertA _ _ _ _ h' with h'' | h''
        · exact Or.inl h''
        · exact Or.inr h''
    · exact Or.inr h'

theorem tb_keys_commitDet {E : Type} (sim : E → E → ℚ) (det : Det E)
    (bbox : List ℚ) (ne? : Option E) (tid : ℕ) (st : TState E) (k : ℕ)
    (hk : k ∈ (commitDet sim det bbox ne? tid st).track_bbox.map Prod.fst) :
    k ∈ st.track_bbox.map Prod.fst ∨ k = tid := by
  rcases ne? with _ | ne
  · simp only [commitDet] at hk
    exact keys_insertA _ _ _ _ hk
  · simp only [commitDet] at hk
    exact keys_insertA _ _ _ _ hk

theorem tqs_keys_commitDet {E : Type} (sim : E → E → ℚ) (det : Det E)
    (bbox : List ℚ) (ne? : Option E) (tid : ℕ) (st : TState E) (k : ℕ)
    (hk : k ∈ (commitDet sim det bbox ne? tid st).track_quality_scores.map
      Prod.fst) :
    k ∈ st.track_quality_scores.map Prod.fst ∨ k = tid := by
  rcases ne? with _ | ne
  · exact Or.inl (by simpa [commitDet] using hk)
  · simp only [commitDet] at hk
    rcases hl : lookupA st.track_quality_scores tid with _ | old <;>
      rw [hl] at hk <;> simp only at hk <;>
      exact keys_insertA _ _ _ _ hk

/-- Per-frame accumulator invariant: used ids are below the counter,
live keys are below the counter, emitted track ids are pairwise distinct
and recorded as used. -/
def AccInv {E : Type} (acc : FrameAcc E) : Prop :=
  (∀ u ∈ acc.used, u < acc.st.next_id) ∧ StBound acc.st ∧
  (acc.outDets.map OutDet.trackId).Nodup ∧
  (∀ d ∈ acc.outDets, d.trackId ∈ acc.used)

theorem accInv_processDet {E : Type} (normf : E → E) (sim : E → E → ℚ)
    (th : ℚ) (acc : FrameAcc E) (det : Det E) (h : AccInv acc) :
    AccInv (processDet normf sim th acc det) := by
  obtain ⟨hused, hbound, hnodup, hout⟩ := h
  rcases hbb : det.bbox with _ | bbox
  · simpa [processDet, hbb, AccInv] using ⟨hused, hbound, hnodup, hout⟩
  by_cases hlen : bbox.length = 4
  swap
  · simpa [processDet, hbb, hlen, AccInv] using ⟨hused, hbound, hnodup, hout⟩
  have hres : processDet normf sim th acc det =
      { st := commitDet sim det bbox (det.embedding.map normf)
          (allocIfNew acc.st (chooseTrack sim th acc.st acc.used
            (det.embedding.map normf) bbox)).1
          (allocIfNew acc.st (chooseTrack sim th acc.st acc.used
            (det.embedding.map normf) bbox)).2,
        used := (allocIfNew acc.st (chooseTrack sim th acc.st acc.used
          (det.embedding.map normf) bbox)).1 :: acc.used,
        outDets := acc.outDets ++ [⟨bbox,
          (allocIfNew acc.st (chooseTrack sim th acc.st acc.used
            (det.embedding.map normf) bbox)).1⟩] } := by
    simp [processDet, hbb, hlen]
  -- facts about the chosen id and the state it is committed into
  have key :
      (allocIfNew acc.st (chooseTrack sim th acc.st acc.used
        (det.embedding.map normf) bbox)).1 ∉ acc.used ∧
      (allocIfNew acc.st (chooseTrack sim th acc.st acc.used
        (det.embedding.map normf) bbox)).1 <
        (allocIfNew acc.st (chooseTrack sim th acc.st acc.used
          (det.embedding.map normf) bbox)).2.next_id ∧
      StBound (allocIfNew acc.st (chooseTrack sim th acc.st acc.used
        (det.embedding.map normf) bbox)).2 ∧
      (∀ u ∈ acc.used, u <
        (allocIfNew acc.st (chooseTrack sim th acc.st acc.used
          (det.embedding.map normf) bbox)).2.next_id) := by
    rcases hc : chooseTrack sim th acc.st acc.used
        (det.embedding.map normf) bbox with _ | t
    · simp only [allocIfNew]
      refine ⟨fun hmem => lt_irrefl _ (hused _ hmem), Nat.lt_succ_self _,
        ⟨?_, ?_, ?_⟩, fun u hu => Nat.lt_succ_of_lt (hused u hu)⟩
      · intro k hk
        exact Nat.lt_succ_of_lt (hbound.1 k hk)
      · intro k hk
        exact Nat.lt_succ_of_lt (hbound.2.1 k hk)
      · intro k hk
        rcases keys_insertA _ _ _ _ hk with h' | h'
        · exact Nat.lt_succ_of_lt (hbound.2.2 k h')
        · rw [h']; exact Nat.lt_succ_self _
    · simp only [allocIfNew]
      obtain ⟨hkey, hnu⟩ :=
        chooseTrack_some sim th acc.st acc.used (det.embedding.map normf)
          bbox t hc
      refine ⟨hnu, ?_, hbound, hused⟩
      rcases hkey with h' | h'
      · exact hbound.1 t h'
      · exact hbound.2.1 t h'
  obtain ⟨knu, klt, kbound, kused⟩ := key
  rw [hres]
  refine ⟨?_, ?_, ?_, ?_⟩
  · intro u hu
    rw [next_id_commitDet]
    rcases List.mem_cons.mp hu with h' | h'
    · rw [h']; exact klt
    · exact kused u h'
  · refine ⟨?_, ?_, ?_⟩ <;> intro k hk <;> rw [next_id_commitDet]
    · rcases te_keys_commitDet _ _ _ _ _ _ _ hk with h' | h'
      · exact kbound.1 k h'
      · rw [h']; exact klt
    · rcases tb_keys_commitDet _ _ _ _ _ _ _ hk with h' | h'
      · exact kbound.2.1 k h'
      · rw [h']; exact klt
    · rcases tqs_keys_commitDet _ _ _ _ _ _ _ hk with h' | h'
      · exact kbound.2.2 k h'
      · rw [h']; exact klt
  · rw [List.map_append]
    refine List.nodup_append.mpr ⟨hnodup, List.nodup_singleton _, ?_⟩
    intro a ha hb
    simp only [List.map_cons, List.map_nil, List.mem_singleton] at hb
    rcases List.mem_map.mp ha with ⟨d, hd, hda⟩
    exact knu (hb ▸ hda ▸ hout d hd)
  · intro d hd
    rcases List.mem_append.mp hd with h' | h'
    · exact List.mem_cons_of_mem _ (hout d h')
    · simp only [List.mem_singleton] at h'
      rw [h']
      exact List.mem_cons_self _ _

theorem outLen_processDet {E : Type} (normf : E → E) (sim : E → E → ℚ)
    (th : ℚ) (acc : FrameAcc E) (det : Det E) (hv : validDet det = true) :
    (processDet normf sim th acc det).outDets.length =
      acc.outDets.length + 1 := by
  rcases hbb : det.bbox with _ | bbox
  · rw [validDet, hbb] at hv; simp at hv
  · have hlen : bbox.length = 4 := by
      rw [validDet, hbb] at hv; simpa using hv
    simp [processDet, hbb, hlen]

theorem accInv_foldl {E : Type} (normf : E → E) (sim : E → E → ℚ) (th : ℚ)
    (l : List (Det E)) : ∀ (acc : FrameAcc E), AccInv acc →
    AccInv (l.foldl (processDet normf sim th) acc) := by
  induction l with
  | nil => intro acc h; exact h
  | cons d t ih =>
    intro acc h
    rw [List.foldl_cons]
    exact ih _ (accInv_processDet normf sim th acc d h)

theorem outLen_foldl {E : Type} (normf : E → E) (sim : E → E → ℚ) (th : ℚ)
    (l : List (Det E)) : ∀ (acc : FrameAcc E),
    (∀ d ∈ l, validDet d = true) →
    (l.foldl (processDet normf sim th) acc).outDets.length =
      acc.outDets.length + l.length := by
  induction l with
  | nil => intro acc _; rfl
  | cons d t ih =>
    intro acc hv
    rw [List.foldl_cons, ih _ (fun x hx => hv x (List.mem_cons_of_mem _ hx)),
      outLen_processDet normf sim th acc d (hv d (List.mem_cons_self _ _))]
    simp [Nat.add_comm, Nat.add_assoc]

theorem processFrame_spec {E : Type} (normf : E → E) (sim : E → E → ℚ)
    (th : ℚ) (st : TState E) (dets : List (Det E)) (hb : StBound st)
    (hv : ∀ d ∈ dets, validDet d = true) :
    StBound (processFrame normf sim th st dets).1 ∧
    ((processFrame normf sim th st dets).2.map OutDet.trackId).Nodup ∧
    (processFrame normf sim th st dets).2.length = dets.length := by
  have hinv0 : AccInv (⟨st, [], []⟩ : FrameAcc E) := by
    refine ⟨by simp, hb, by simp, by simp⟩
  have hinv := accInv_foldl normf sim th (sortDescDets dets) _ hinv0
  have hlen := outLen_foldl normf sim th (sortDescDets dets) ⟨st, [], []⟩
    (fun d hd => hv d ((mem_sortDescDets d dets).mp hd))
  refine ⟨hinv.2.1, hinv.2.2.1, ?_⟩
  rw [processFrame]
  simp only at hlen ⊢
  rw [hlen, length_sortDescDets]
  simp

theorem assignFrames_spec {E : Type} (normf : E → E) (sim : E → E → ℚ)
    (th : ℚ) (frames : List (List (Det E))) : ∀ (st : TState E),
    StBound st → (∀ f ∈ frames, ∀ d ∈ f, validDet d = true) →
    ((assignFrames normf sim th st frames).2.map List.length =
      frames.map List.length) ∧
    (∀ fr ∈ (assignFrames normf sim th st frames).2,
      (fr.map OutDet.trackId).Nodup) ∧
    StBound (assignFrames normf sim th st frames).1 := by
  induction frames with
  | nil => intro st hb _; exact ⟨rfl, by simp [assignFrames], hb⟩
  | cons f fs ih =>
    intro st hb hv
    obtain ⟨hb1, hn1, hl1⟩ := processFrame_spec normf sim th st f hb
      (hv f (List.mem_cons_self _ _))
    obtain ⟨hmap, hnodup, hbfin⟩ := ih _ hb1
      (fun g hg => hv g (List.mem_cons_of_mem _ hg))
    refine ⟨?_, ?_, ?_⟩
    · simp only [assignFrames, List.map_cons]
      rw [hl1, hmap]
    · intro fr hfr
      simp only [assignFrames, List.mem_cons] at hfr
      rcases hfr with h' | h'
      · rw [h']; exact hn1
      · exact hnodup fr h'
    · simpa [assignFrames] using hbfin

/-! ## Gallery-size invariant (claim C8) -/

/-- Every gallery holds at most `MAX_EMBEDDINGS_PER_TRACK = 8` vectors. -/
def GalInv {E : Type} (st : TState E) : Prop :=
  ∀ p ∈ st.track_embeddings, p.2.length ≤ 8

theorem updateGallery_length {E : Type} (sim : E → E → ℚ) (ne : E)
    (cur : List E) (h : cur.length ≤ 8) :
    (updateGallery sim ne cur).length ≤ 8 := by
  rw [updateGallery]
  by_cases hc : ((cur.all fun e => !decide (9 / 10 < sim ne e)) &&
      decide (cur.length < 8)) = true
  · rw [if_pos hc]
    have hlt : cur.length < 8 := by
      simpa using (Bool.and_eq_true _ _ |>.mp hc).2
    simp only [List.length_append, List.length_singleton]
    omega
  · rw [if_neg hc]
    exact h

theorem galInv_commitDet {E : Type} (sim : E → E → ℚ) (det : Det E)
    (bbox : List ℚ) (ne? : Option E) (tid : ℕ) (st : TState E)
    (h : GalInv st) : GalInv (commitDet sim det bbox ne? tid st) := by
  rcases ne? with _ | ne
  · intro p hp
    exact h p (by simpa [commitDet] using hp)
  · intro p hp
    simp only [commitDet] at hp
    have hte1 : ∀ q ∈ (if (lookupA st.track_embeddings tid).isSome then
        st.track_embeddings else insertA st.track_embeddings tid []),
        (q : ℕ × List E).2.length ≤ 8 := by
      intro q hq
      by_cases hl : (lookupA st.track_embeddings tid).isSome
      · rw [if_pos hl] at hq; exact h q hq
      · rw [if_neg hl] at hq
        rcases mem_insertA _ _ _ _ hq with h' | h'
        · exact h q h'
        · rw [h']; simp
    rcases mem_insertA _ _ _ _ hp with h' | h'
    · exact hte1 p h'
    · rw [h']
      apply updateGallery_length
      rcases hl : lookupA (if (lookupA st.track_embeddings tid).isSome then
          st.track_embeddings else insertA st.track_embeddings tid []) tid
        with _ | v
      · simp [hl]
      · have := hte1 (tid, v) (lookupA_mem _ _ _ hl)
        simpa [hl] using this

theorem galInv_processDet {E : Type} (normf : E → E) (sim : E → E → ℚ)
    (th : ℚ) (acc : FrameAcc E) (det : Det E) (h : GalInv acc.st) :
    GalInv (processDet normf sim th acc det).st := by
  rcases hbb : det.bbox with _ | bbox
  · simpa [processDet, hbb] using h
  by_cases hlen : bbox.length = 4
  · have halloc : GalInv (allocIfNew acc.st (chooseTrack sim th acc.st
        acc.used (det.embedding.map normf) bbox)).2 := by
      rcases hc : chooseTrack sim th acc.st acc.used
          (det.embedding.map normf) bbox with _ | t
      · simpa [allocIfNew] using h
      · simpa [allocIfNew] using h
    simp only [processDet, hbb, hlen, if_pos]
    exact galInv_commitDet _ _ _ _ _ _ halloc
  · simpa [processDet, hbb, hlen] using h

theorem galInv_foldl {E : Type} (normf : E → E) (sim : E → E → ℚ) (th : ℚ)
    (l : List (Det E)) : ∀ (acc : FrameAcc E), GalInv acc.st →
    GalInv (l.foldl (processDet normf sim th) acc).st := by
  induction l with
  | nil => intro acc h; exact h
  | cons d t ih =>
    intro acc h
    rw [List.foldl_cons]
    exact ih _ (galInv_processDet normf sim th acc d h)

theorem galInv_assignFrames {E : Type} (normf : E → E) (sim : E → E → ℚ)
    (th : ℚ) (frames : List (List (Det E))) : ∀ (st : TState E),
    GalInv st → GalInv (assignFrames normf sim th st frames).1 := by
  induction frames with
  | nil => intro st h; exact h
  | cons f fs ih =>
    intro st h
    simp only [assignFrames]
    exact ih _ (galInv_foldl normf sim th (sortDescDets f) ⟨st, [], []⟩ h)

/-! ## Theorems for claims C2 and C7 -/

/-- C2: on the three-frame sequence `[[box [0,0,10,10]], [[1,1,11,11]],
[[50,50,60,60]]]` with no embeddings, `assign_track_ids_embedding`
assigns track ids `[0], [0], [1]`: the two overlapping boxes share id 0
through the IoU fallback and the disjoint third box opens id 1.  The
statement quantifies over the embedding type and the appearance
functions, which are never consulted here. -/
theorem c2_iou_fallback_scenario : ∀ (E : Type) (normf : E → E)
    (sim : E → E → ℚ),
    ((assign_track_ids_embedding normf sim
        [[⟨some [0, 0, 10, 10], none, none⟩],
         [⟨some [1, 1, 11, 11], none, none⟩],
         [⟨some [50, 50, 60, 60], none, none⟩]] (3 / 5)).1.map
      (fun fr => fr.map OutDet.trackId)) = [[0], [0], [1]] := by
  intro E normf sim
  norm_num [assign_track_ids_embedding, assignCore, assignFrames, processFrame,
    sortDescDets, insertDesc, processDet, chooseTrack, allocIfNew, argmaxStep,
    iouScore, iou_box, commitDet, updateGallery, initTState, insertA, lookupA,
    detSortKey, keyLt, bboxArea, listMaxD, listMean]

/-- C1: for every frame sequence whose detections are well-formed (the
spec's Detection always carries a 4-element box), the tracker emits
exactly one annotated detection per input detection (per-frame counts
match), and within any single frame no two emitted detections carry the
same `trackId`.  Holds for every embedding type, normalisation,
similarity function and threshold. -/
theorem c1_one_id_per_detection {E : Type} (normf : E → E)
    (sim : E → E → ℚ) (th : ℚ) (frames : List (List (Det E)))
    (hvalid : ∀ f ∈ frames, ∀ d ∈ f, validDet d = true) :
    ((assignCore normf sim th frames).2.map List.length =
      frames.map List.length) ∧
    ∀ fr ∈ (assignCore normf sim th frames).2,
      (fr.map OutDet.trackId).Nodup := by
  have h := assignFrames_spec normf sim th frames (initTState E)
    (by refine ⟨?_, ?_, ?_⟩ <;> simp [initTState]) hvalid
  exact ⟨h.1, h.2.1⟩

/-- C1 witness: the per-detection output and per-frame distinctness laws
evaluated on a concrete two-detection frame followed by a one-detection
frame. -/
theorem c1_one_id_per_detection_witness :
    ((assignCore (fun u : Unit => u) (fun _ _ => 0) (3 / 5)
        [[⟨some [0, 0, 10, 10], none, none⟩, ⟨some [0, 0, 4, 4], none, none⟩],
         [⟨some [1, 1, 11, 11], none, none⟩]]).2.map List.length =
      [[(⟨some [0, 0, 10, 10], none, none⟩ : Det Unit),
        ⟨some [0, 0, 4, 4], none, none⟩],
       [⟨some [1, 1, 11, 11], none, none⟩]].map List.length) ∧
    ∀ fr ∈ (assignCore (fun u : Unit => u) (fun _ _ => 0) (3 / 5)
        [[⟨some [0, 0, 10, 10], none, none⟩, ⟨some [0, 0, 4, 4], none, none⟩],
         [⟨some [1, 1, 11, 11], none, none⟩]]).2,
      (fr.map OutDet.trackId).Nodup :=
  c1_one_id_per_detection (fun u : Unit => u) (fun _ _ => 0) (3 / 5) _
    (by decide)

/-- C8: the gallery update appends a new embedding only if its
similarity to every stored embedding does not exceed the 0.9 novelty
threshold and the gallery is below the 8-vector cap; consequently, after
any frame sequence, every track's stored embedding list has at most 8
vectors. -/
theorem c8_gallery_novelty_and_cap :
    (∀ (E : Type) (sim : E → E → ℚ) (ne : E) (cur : List E),
      updateGallery sim ne cur ≠ cur →
      updateGallery sim ne cur = cur ++ [ne] ∧ cur.length < 8 ∧
        ∀ e ∈ cur, sim ne e ≤ 9 / 10) ∧
    (∀ (E : Type) (normf : E → E) (sim : E → E → ℚ) (th : ℚ)
      (frames : List (List (Det E))) (p : ℕ × List E),
      p ∈ (assignCore normf sim th frames).1.track_embeddings →
      p.2.length ≤ 8) := by
  constructor
  · intro E sim ne cur hne
    rw [updateGallery] at hne ⊢
    by_cases hc : ((cur.all fun e => !decide (9 / 10 < sim ne e)) &&
        decide (cur.length < 8)) = true
    · rw [if_pos hc]
      refine ⟨rfl, by simpa using (Bool.and_eq_true _ _ |>.mp hc).2, ?_⟩
      intro e he
      have hall := (Bool.and_eq_true _ _ |>.mp hc).1
      have h1 := List.all_eq_true.mp hall e he
      have h2 : ¬ (9 / 10 < sim ne e) := by simpa using h1
      exact le_of_not_lt h2
    · rw [if_neg hc] at hne
      exact absurd rfl hne
  · intro E normf sim th frames p hp
    refine galInv_assignFrames normf sim th frames (initTState E) ?_ p hp
    intro q hq
    simp [initTState] at hq

/-- C8 witness: the novelty/cap law applied to an empty gallery, and the
cap applied to the gallery produced by one embedded detection. -/
theorem c8_gallery_novelty_and_cap_witness :
    (updateGallery (fun _ _ : Unit => (0 : ℚ)) () [] = [] ++ [()] ∧
      ([] : List Unit).length < 8 ∧
      ∀ e ∈ ([] : List Unit), (fun _ _ : Unit => (0 : ℚ)) () e ≤ 9 / 10) ∧
    ((0, [()]) : ℕ × List Unit).2.length ≤ 8 :=
  ⟨c8_gallery_novelty_and_cap.1 Unit (fun _ _ => 0) () [] (by decide),
   c8_gallery_novelty_and_cap.2 Unit (fun u => u) (fun _ _ => 0) (3 / 5)
     [[⟨some [0, 0, 4, 4], some (), some 1⟩]] (0, [()]) (by decide)⟩

/-- C7 counterexample: the claim says `iou_box(a, a) = 1.0` for a box of
positive area, but the `+ 1e-6` stabiliser in the denominator makes the
self-IoU `1/(1 + 1e-6) = 1000000/1000001 < 1` for the unit box. -/
theorem c7_self_iou_not_one : iou_box [0, 0, 1, 1] [0, 0, 1, 1] ≠ 1 := by
  norm_num [iou_box]

/-- C7 amended: for a box of positive area, the self-IoU equals
`area/(area + 1e-6)`, which is strictly below 1; the IoU of two boxes
with empty interior intersection is exactly 0; and `iou_box` is
symmetric in its two boxes. -/
theorem c7_box_laws :
    (∀ x1 y1 x2 y2 : ℚ, x1 < x2 → y1 < y2 →
      iou_box [x1, y1, x2, y2] [x1, y1, x2, y2] =
        (x2 - x1) * (y2 - y1) / ((x2 - x1) * (y2 - y1) + 1 / 1000000) ∧
      iou_box [x1, y1, x2, y2] [x1, y1, x2, y2] < 1) ∧
    (∀ ax1 ay1 ax2 ay2 bx1 by1 bx2 by2 : ℚ,
      (min ax2 bx2 ≤ max ax1 bx1 ∨ min ay2 by2 ≤ max ay1 by1) →
      iou_box [ax1, ay1, ax2, ay2] [bx1, by1, bx2, by2] = 0) ∧
    (∀ ax1 ay1 ax2 ay2 bx1 by1 bx2 by2 : ℚ,
      iou_box [ax1, ay1, ax2, ay2] [bx1, by1, bx2, by2] =
        iou_box [bx1, by1, bx2, by2] [ax1, ay1, ax2, ay2]) := by
  refine ⟨?_, ?_, ?_⟩
  · intro x1 y1 x2 y2 h1 h2
    have hA : 0 < (x2 - x1) * (y2 - y1) :=
      mul_pos (sub_pos.mpr h1) (sub_pos.mpr h2)
    have hcond : ¬ (x2 ≤ x1 ∨ y2 ≤ y1) := by
      push_neg
      exact ⟨h1, h2⟩
    constructor
    · simp only [iou_box, max_self, min_self, if_neg hcond]
      congr 1
      ring
    · simp only [iou_box, max_self, min_self, if_neg hcond]
      have hden : (x2 - x1) * (y2 - y1) + (x2 - x1) * (y2 - y1) -
          (x2 - x1) * (y2 - y1) + 1 / 1000000 =
          (x2 - x1) * (y2 - y1) + 1 / 1000000 := by ring
      rw [hden]
      have hpos : (0 : ℚ) < (x2 - x1) * (y2 - y1) + 1 / 1000000 := by
        have : (0 : ℚ) < 1 / 1000000 := by norm_num
        linarith
      rw [div_lt_one hpos]
      linarith
  · intro ax1 ay1 ax2 ay2 bx1 by1 bx2 by2 h
    simp only [iou_box, if_pos h]
  · intro ax1 ay1 ax2 ay2 bx1 by1 bx2 by2
    simp only [iou_box]
    rw [max_comm bx1 ax1, max_comm by1 ay1, min_comm bx2 ax2, min_comm by2 ay2,
      add_comm ((bx2 - bx1) * (by2 - by1)) ((ax2 - ax1) * (ay2 - ay1))]

/-- C7 witness: the amended box laws evaluated on the boxes `[0,0,2,3]`
(self-IoU) and `[0,0,1,1]`, `[5,5,6,6]` (disjoint pair). -/
theorem c7_box_laws_witness :
    (iou_box [0, 0, 2, 3] [0, 0, 2, 3] =
        ((2 : ℚ) - 0) * (3 - 0) / (((2 : ℚ) - 0) * (3 - 0) + 1 / 1000000) ∧
      iou_box [0, 0, 2, 3] [0, 0, 2, 3] < 1) ∧
    iou_box [0, 0, 1, 1] [5, 5, 6, 6] = 0 :=
  ⟨c7_box_laws.1 0 0 2 3 (by norm_num) (by norm_num),
   c7_box_laws.2.1 0 0 1 1 5 5 6 6 (by norm_num)⟩

/-! ## Seam Feathering Compositor: `soften_swap_edges`
(main.py lines 444–492)

Images are uint8 RGB frames: a height, a width and a pixel function to
channel triples.  `cv2.GaussianBlur` is an opaque external collaborator,
abstracted as the `blurFn` parameter (given the region mask and the odd
kernel size).  All float32 arithmetic is idealised as exact ℚ;
`astype(np.uint8)` is truncation toward zero, which on the nonnegative
values arising here is the floor. -/

/-- An RGB frame: `h × w` pixels, each a channel triple. -/
structure Image where
  h : ℕ
  w : ℕ
  px : ℤ → ℤ → ℕ × ℕ × ℕ

/-- Floor of a rational, computable: `⌊q⌋ = fdiv num den`. -/
def ratFloor (q : ℚ) : ℤ := Int.fdiv q.num q.den

/-- `int(z * 0.25)` on an integer `z`: multiplication by 0.25 is exact in
binary floating point, and `int()` truncates toward zero. -/
def truncDiv4 (z : ℤ) : ℤ :=
  if 0 ≤ z then ((z.natAbs / 4 : ℕ) : ℤ) else -((z.natAbs / 4 : ℕ) : ℤ)

/-- `astype(np.uint8)` on the nonnegative blend values: floor to ℕ. -/
def q8 (q : ℚ) : ℕ := (ratFloor q).toNat

/-- `np.abs(swap - orig).mean(axis=2)` at one pixel: mean absolute
difference over the three channels. -/
def meanAbsDiff (p q : ℕ × ℕ × ℕ) : ℚ :=
  (|(p.1 : ℚ) - (q.1 : ℚ)| + |(p.2.1 : ℚ) - (q.2.1 : ℚ)| +
    |(p.2.2 : ℚ) - (q.2.2 : ℚ)|) / 3

/-- The binary change mask of the working region whose top-left corner is
`(ry1, rx1)`: 1 where the mean absolute difference exceeds 5.0, else 0
(line 474). -/
def swapChangeMask (original_rgb swapped_rgb : Image) (ry1 rx1 : ℤ)
    (j i : ℤ) : ℚ :=
  if 5 < meanAbsDiff (swapped_rgb.px (ry1 + j) (rx1 + i))
      (original_rgb.px (ry1 + j) (rx1 + i)) then 1 else 0

/-- `mask.sum()` over an `rh × rw` region. -/
def regionSum (f : ℤ → ℤ → ℚ) (rh rw : ℕ) : ℚ :=
  ((List.range rh).map (fun j =>
    ((List.range rw).map (fun i => f (j : ℤ) (i : ℤ))).sum)).sum

/-- `soften_swap_edges(original_rgb, swapped_rgb, bbox, blur_radius)`:
per-region, difference-driven alpha blend.  `blurFn` abstracts
`cv2.GaussianBlur(change_mask, (k, k), 0)`. -/
def soften_swap_edges (blurFn : (ℤ → ℤ → ℚ) → ℕ → ℤ → ℤ → ℚ)
    (original_rgb swapped_rgb : Image) (bbox : Option (List ℤ))
    (blur_radius : ℚ) : Image :=
  match bbox with
  | none => swapped_rgb
  | some bx =>
    if bx.length = 4 then
      let x1 := bx.getD 0 0
      let y1 := bx.getD 1 0
      let x2 := bx.getD 2 0
      let y2 := bx.getD 3 0
      let face_w := x2 - x1
      let face_h := y2 - y1
      let margin := truncDiv4 (max face_w face_h)
      let rx1 := max 0 (x1 - margin)
      let ry1 := max 0 (y1 - margin)
      let rx2 := min (original_rgb.w : ℤ) (x2 + margin)
      let ry2 := min (original_rgb.h : ℤ) (y2 + margin)
      if rx2 ≤ rx1 ∨ ry2 ≤ ry1 then swapped_rgb
      else
        let rh := (ry2 - ry1).toNat
        let rw := (rx2 - rx1).toNat
        let mask := swapChangeMask original_rgb swapped_rgb ry1 rx1
        if regionSum mask rh rw < 10 then swapped_rgb
        else
          let k := (max 7 (ratFloor ((min rw rh : ℚ) * blur_radius)).toNat) ||| 1
          let soft := blurFn mask k
          let blend : ℤ → ℤ → ℕ × ℕ × ℕ := fun j i =>
            let m := min (max (max (soft j i) (mask j i)) 0) 1
            let o := original_rgb.px (ry1 + j) (rx1 + i)
            let s := swapped_rgb.px (ry1 + j) (rx1 + i)
            (q8 ((o.1 : ℚ) * (1 - m) + (s.1 : ℚ) * m),
             q8 ((o.2.1 : ℚ) * (1 - m) + (s.2.1 : ℚ) * m),
             q8 ((o.2.2 : ℚ) * (1 - m) + (s.2.2 : ℚ) * m))
          { h := swapped_rgb.h, w := swapped_rgb.w,
            px := fun y x =>
              if ry1 ≤ y ∧ y < ry2 ∧ rx1 ≤ x ∧ x < rx2 then
                blend (y - ry1) (x - rx1)
              else swapped_rgb.px y x }
    else swapped_rgb

theorem regionSum_zero (f : ℤ → ℤ → ℚ) (rh rw : ℕ)
    (h : ∀ j i, f j i = 0) : regionSum f rh rw = 0 := by
  simp [regionSum, h]

theorem q8_natCast (n : ℕ) : q8 (n : ℚ) = n := by
  rw [q8, ratFloor, Rat.num_natCast, Rat.den_natCast, Nat.cast_one,
    Int.fdiv_one, Int.toNat_natCast]

theorem truncDiv4_nonneg (z : ℤ) (h : 0 ≤ z) : 0 ≤ truncDiv4 z := by
  rw [truncDiv4, if_pos h]
  exact Int.natCast_nonneg _

/-- C6: if the modified frame is pixel-identical to the original, the
change mask is identically zero and `soften_swap_edges` returns the
modified frame unchanged, for every alteration box, feather fraction and
blur collaborator (no-op law). -/
theorem c6_noop_law (blurFn : (ℤ → ℤ → ℚ) → ℕ → ℤ → ℤ → ℚ)
    (o s : Image) (bbox : Option (List ℤ)) (br : ℚ)
    (h : ∀ y x, s.px y x = o.px y x) :
    soften_swap_edges blurFn o s bbox br = s ∧
    ∀ ry1 rx1 j i, swapChangeMask o s ry1 rx1 j i = 0 := by
  have hmask : ∀ ry1 rx1 j i, swapChangeMask o s ry1 rx1 j i = 0 := by
    intro ry1 rx1 j i
    rw [swapChangeMask, h]
    rw [if_neg]
    have : meanAbsDiff (o.px (ry1 + j) (rx1 + i))
        (o.px (ry1 + j) (rx1 + i)) = 0 := by
      simp [meanAbsDiff]
    rw [this]
    norm_num
  refine ⟨?_, hmask⟩
  rcases bbox with _ | bx
  · rfl
  · simp only [soften_swap_edges]
    split_ifs with h1 h2 h3
    · rfl
    · rfl
    · exfalso
      apply h3
      rw [regionSum_zero _ _ _ (fun j i => hmask _ _ j i)]
      norm_num
    · rfl

/-- C6 witness: the no-op law on a concrete uniform 4×4 frame pair. -/
theorem c6_noop_law_witness :
    soften_swap_edges (fun _ _ _ _ => 0) ⟨4, 4, fun _ _ => (7, 7, 7)⟩
        ⟨4, 4, fun _ _ => (7, 7, 7)⟩ (some [0, 0, 2, 2]) (2 / 25) =
      ⟨4, 4, fun _ _ => (7, 7, 7)⟩ ∧
    ∀ ry1 rx1 j i, swapChangeMask ⟨4, 4, fun _ _ => (7, 7, 7)⟩
      ⟨4, 4, fun _ _ => (7, 7, 7)⟩ ry1 rx1 j i = 0 :=
  c6_noop_law (fun _ _ _ _ => 0) ⟨4, 4, fun _ _ => (7, 7, 7)⟩
    ⟨4, 4, fun _ _ => (7, 7, 7)⟩ (some [0, 0, 2, 2]) (2 / 25)
    (fun _ _ => rfl)

/-- C5 amended: every pixel strictly inside the alteration box (and
inside the frame) whose mean absolute channel difference from the
original EXCEEDS the 5.0 change threshold keeps full opacity: the output
value equals the modified value, for every blur collaborator.  (Pixels
that differ by at most the threshold carry a zero change-mask bit and
may be blended; see the counterexample.) -/
theorem c5_interior_preservation (blurFn : (ℤ → ℤ → ℚ) → ℕ → ℤ → ℤ → ℚ)
    (o s : Image) (x1 y1 x2 y2 : ℤ) (br : ℚ) (y x : ℤ)
    (hx1 : x1 < x) (hx2 : x + 1 < x2) (hy1 : y1 < y) (hy2 : y + 1 < y2)
    (hx0 : 0 ≤ x) (hxw : x < (o.w : ℤ)) (hy0 : 0 ≤ y) (hyh : y < (o.h : ℤ))
    (hdiff : 5 < meanAbsDiff (s.px y x) (o.px y x)) :
    (soften_swap_edges blurFn o s (some [x1, y1, x2, y2]) br).px y x =
      s.px y x := by
  have hm : 0 ≤ truncDiv4 (max (x2 - x1) (y2 - y1)) :=
    truncDiv4_nonneg _ (le_trans (by omega) (le_max_left _ _))
  set m := truncDiv4 (max (x2 - x1) (y2 - y1)) with hmdef
  have hxin1 : max 0 (x1 - m) ≤ x := max_le hx0 (by omega)
  have hxin2 : x < min (o.w : ℤ) (x2 + m) := lt_min hxw (by omega)
  have hyin1 : max 0 (y1 - m) ≤ y := max_le hy0 (by omega)
  have hyin2 : y < min (o.h : ℤ) (y2 + m) := lt_min hyh (by omega)
  have hcond : ¬ (min (o.w : ℤ) (x2 + m) ≤ max 0 (x1 - m) ∨
      min (o.h : ℤ) (y2 + m) ≤ max 0 (y1 - m)) := by
    push_neg
    exact ⟨lt_of_le_of_lt hxin1 hxin2, lt_of_le_of_lt hyin1 hyin2⟩
  simp only [soften_swap_edges, List.getD, List.get?, List.length_cons,
    List.length_nil]
  rw [if_pos (by trivial)]
  simp only [Option.getD_some]
  rw [if_neg (by rw [← hmdef]; exact hcond)]
  by_cases hsum : regionSum
      (swapChangeMask o s (max 0 (y1 - m)) (max 0 (x1 - m)))
      ((min (o.h : ℤ) (y2 + m) - max 0 (y1 - m)).toNat)
      ((min (o.w : ℤ) (x2 + m) - max 0 (x1 - m)).toNat) < 10
  · rw [if_pos hsum]
  · rw [if_neg hsum]
    simp only
    rw [if_pos ⟨hyin1, hyin2, hxin1, hxin2⟩]
    have hyy : max 0 (y1 - m) + (y - max 0 (y1 - m)) = y := by omega
    have hxx : max 0 (x1 - m) + (x - max 0 (x1 - m)) = x := by omega
    have hmask1 : swapChangeMask o s (max 0 (y1 - m)) (max 0 (x1 - m))
        (y - max 0 (y1 - m)) (x - max 0 (x1 - m)) = 1 := by
      rw [swapChangeMask, hyy, hxx, if_pos hdiff]
    rw [hmask1]
    set sv := blurFn (swapChangeMask o s (max 0 (y1 - m)) (max 0 (x1 - m)))
      ((max 7 (ratFloor ((min
        ((min (o.w : ℤ) (x2 + m) - max 0 (x1 - m)).toNat)
        ((min (o.h : ℤ) (y2 + m) - max 0 (y1 - m)).toNat) : ℚ) * br)).toNat)
        ||| 1) (y - max 0 (y1 - m)) (x - max 0 (x1 - m)) with hsv
    have hone : min (max (max sv 1) 0) 1 = 1 := by
      have h1 : (1 : ℚ) ≤ max (max sv 1) 0 :=
        le_trans (le_max_right sv 1) (le_max_left _ 0)
      rw [min_eq_right h1]
    rw [hone]
    have hblend : ∀ (p q : ℕ × ℕ × ℕ),
        (q8 ((p.1 : ℚ) * (1 - 1) + (q.1 : ℚ) * 1),
         q8 ((p.2.1 : ℚ) * (1 - 1) + (q.2.1 : ℚ) * 1),
         q8 ((p.2.2 : ℚ) * (1 - 1) + (q.2.2 : ℚ) * 1)) = q := by
      intro p q
      have he : ∀ (a b : ℕ), ((a : ℚ) * (1 - 1) + (b : ℚ) * 1) = (b : ℚ) := by
        intro a b
        ring
      rw [he, he, he, q8_natCast, q8_natCast, q8_natCast]
    rw [hyy, hxx]
    exact hblend (o.px y x) (s.px y x)

/-- C5 witness: interior preservation applied to the concrete frame pair
of `origCE`/`swapCE` below at the strongly-changed pixel (2, 2). -/
theorem c5_interior_preservation_witness :
    (soften_swap_edges (fun _ _ _ _ => 1 / 2)
        ⟨9, 9, fun _ _ => (0, 0, 0)⟩
        ⟨9, 9, fun y x =>
          if 1 ≤ y ∧ y < 5 ∧ 1 ≤ x ∧ x < 5 then (200, 200, 200)
          else if y = 5 ∧ x = 5 then (3, 3, 3) else (0, 0, 0)⟩
        (some [0, 0, 7, 7]) (2 / 25)).px 2 2 =
      (⟨9, 9, fun y x =>
          if 1 ≤ y ∧ y < 5 ∧ 1 ≤ x ∧ x < 5 then (200, 200, 200)
          else if y = 5 ∧ x = 5 then (3, 3, 3) else (0, 0, 0)⟩ : Image).px
        2 2 :=
  c5_interior_preservation (fun _ _ _ _ => 1 / 2) _ _ 0 0 7 7 (2 / 25) 2 2
    (by norm_num) (by norm_num) (by norm_num) (by norm_num) (by norm_num)
    (by norm_num) (by norm_num) (by norm_num)
    (by norm_num [meanAbsDiff])

/-- A 4×4 all-black original frame, for the C5 counterexample. -/
def origCE : Image := ⟨4, 4, fun _ _ => (0, 0, 0)⟩

/-- The modified frame: strongly changed everywhere (value 200, 15
pixels in the working region) except one weakly changed pixel at (2, 2)
(value 3, mean difference 3 ≤ 5). -/
def swapCE : Image :=
  ⟨4, 4, fun y x => if y = 2 ∧ x = 2 then (3, 3, 3) else (200, 200, 200)⟩

/-- A blur collaborator returning alpha 1/2 everywhere — the behaviour a
Gaussian blur exhibits near the boundary of a large changed block. -/
def blurHalf : (ℤ → ℤ → ℚ) → ℕ → ℤ → ℤ → ℚ := fun _ _ _ _ => 1 / 2

set_option maxHeartbeats 2000000 in
/-- C5 counterexample: at pixel (2, 2), strictly inside the alteration
box `[0,0,4,4]`, the modified value (3,3,3) differs from the original
(0,0,0), yet the output is the blend (1,1,1) — the pixel does NOT keep
full opacity, because its mean difference 3 does not exceed the 5.0
change-mask threshold while the blurred mask is 1/2 there. -/
theorem c5_small_change_blended :
    swapCE.px 2 2 ≠ origCE.px 2 2 ∧
    ((0 : ℤ) < 2 ∧ (2 : ℤ) + 1 < 4) ∧
    (soften_swap_edges blurHalf origCE swapCE (some [0, 0, 4, 4])
        (2 / 25)).px 2 2 ≠ swapCE.px 2 2 := by
  refine ⟨by norm_num [swapCE, origCE], by norm_num, ?_⟩
  have hmask : ∀ j i : ℤ, swapChangeMask origCE swapCE 0 0 j i =
      if j = 2 ∧ i = 2 then 0 else 1 := by
    intro j i
    rw [swapChangeMask]
    simp only [origCE, swapCE, zero_add]
    by_cases h : j = 2 ∧ i = 2
    · obtain ⟨hj, hi⟩ := h
      subst hj
      subst hi
      norm_num [meanAbsDiff]
    · rw [if_neg h, if_neg h, if_pos]
      norm_num [meanAbsDiff]
  have hsum : regionSum (swapChangeMask origCE swapCE 0 0) 4 4 = 15 := by
    simp only [regionSum, hmask, List.range_succ, List.range_zero,
      List.map_append, List.map_cons, List.map_nil, List.sum_append,
      List.sum_cons, List.sum_nil]
    norm_num
  have hout : (soften_swap_edges blurHalf origCE swapCE
      (some [0, 0, 4, 4]) (2 / 25)).px 2 2 = (1, 1, 1) := by
    simp only [soften_swap_edges, List.getD, List.get?, List.length_cons,
      List.length_nil, Option.getD_some]
    rw [if_pos (by trivial)]
    rw [show truncDiv4 (((4 : ℤ) - 0) ⊔ ((4 : ℤ) - 0)) = 1 from by decide]
    rw [show ((0 : ℤ) ⊔ (0 - 1)) = 0 from by decide]
    rw [show origCE.w = 4 from rfl, show origCE.h = 4 from rfl]
    rw [show (((4 : ℕ) : ℤ) ⊓ ((4 : ℤ) + 1)) = 4 from by decide]
    rw [if_neg (by norm_num : ¬ ((4 : ℤ) ≤ 0 ∨ (4 : ℤ) ≤ 0))]
    rw [show ((4 : ℤ) - 0).toNat = 4 from by decide]
    rw [hsum]
    rw [if_neg (by norm_num : ¬ (15 : ℚ) < 10)]
    have hmask22 : swapChangeMask origCE swapCE 0 0 2 2 = 0 := by
      rw [hmask]
      norm_num
    norm_num [blurHalf, q8, ratFloor, Int.fdiv, hmask22,
      show origCE.px 2 2 = (0, 0, 0) from rfl,
      show swapCE.px 2 2 = (3, 3, 3) from rfl]
  rw [hout, show swapCE.px 2 2 = (3, 3, 3) from rfl]
  decide

/-! ## Job store and lifecycle (morph-service main.py lines 553–562,
711–716, 833–838, 840–1182; wan-service main.py lines 47–54, 73–145)

The job map `_jobs` is an insertion-ordered association list from job id
to record.  `os.times()` timestamps are outside the model.  Python
`round(x, 2)` is round-half-even; on the decimal-exact progress values
appearing in the claims it agrees with its binary-float original. -/

/-- The `result` payload of a job record: an error message dict or a
success payload (output path and settings). -/
inductive JobResult
  | errmsg (msg : String)
  | payload (out : String)
deriving DecidableEq

/-- One `_jobs[job_id]` record: progress, status, result. -/
structure JobRecord where
  progress : ℚ
  status : String
  result : Option JobResult
deriving DecidableEq

/-- Round-half-even to an integer, the semantics of Python `round`. -/
def round_half_even (q : ℚ) : ℤ :=
  let f := ratFloor q
  let r := q - (f : ℚ)
  if r < 1 / 2 then f
  else if 1 / 2 < r then f + 1
  else if f % 2 = 0 then f else f + 1

/-- `round(progress, 2)`. -/
def round2 (q : ℚ) : ℚ := ((round_half_even (q * 100) : ℤ) : ℚ) / 100

/-- `update_job_progress(job_id, progress, status, result)`: replace the
whole record under the job id (lines 556–562; the wan-service twin at
lines 47–54 does the same under `_jobs_lock`). -/
def update_job_progress (jobs : List (String × JobRecord)) (job_id : String)
    (progress : ℚ) (status : String) (result : Option JobResult) :
    List (String × JobRecord) :=
  insertA jobs job_id ⟨round2 progress, status, result⟩

/-- Result of polling `/progress/{job_id}`: HTTP 404 or the record. -/
inductive PollResult
  | notFound
  | found (r : JobRecord)
deriving DecidableEq

/-- `get_progress(job_id)` (lines 711–716): a pure read of `_jobs`; the
store is returned unchanged to make the absence of mutation explicit. -/
def get_progress (jobs : List (String × JobRecord)) (job_id : String) :
    List (String × JobRecord) × PollResult :=
  (jobs,
    match lookupA jobs job_id with
    | none => PollResult.notFound
    | some r => PollResult.found r)

/-- `swap` endpoint (lines 833–838): write the initial record with
progress 0 and status "starting", hand `_do_swap` to the background task
queue (which runs only after the response), and return the job id with
status "queued".  The id (given or a fresh uuid) is a parameter. -/
def swap (jobs : List (String × JobRecord)) (job_id : String) :
    List (String × JobRecord) × String × String :=
  (update_job_progress jobs job_id 0 "starting" none, job_id, "queued")

/-- The terminal lifecycle statuses. -/
def terminalStatuses : List String := ["completed", "error", "failed"]

/-- Progress updates issued inside the frame loop at 0-based frame
index `i` (lines 977–1125): `update_job_progress(job_id, 1)` on the very
first frame, and `update_job_progress(job_id, (frame_idx/total)*95)`
whenever the incremented index is a multiple of 5. -/
def frameUpdates (total i : ℕ) : List (ℚ × String) :=
  (if i = 0 then [((1 : ℚ), "processing")] else []) ++
    (if (i + 1) % 5 = 0 then
      [((((i : ℚ) + 1) / (total : ℚ)) * 95, "processing")] else [])

/-- The `(progress, status)` arguments of every `update_job_progress`
call on the happy path of one morph job reading `total` frames: the
"starting" write in `swap`, the "processing" reset (line 969), the frame
loop, then "encoding" at 99 and "completed" at 100 (lines 1144, 1164). -/
def morphHappyTrace (total : ℕ) : List (ℚ × String) :=
  [((0 : ℚ), "starting"), ((0 : ℚ), "processing")] ++
    ((List.range total).map (frameUpdates total)).flatten ++
    [((99 : ℚ), "encoding"), ((100 : ℚ), "completed")]

/-- The progress values as actually recorded (after `round(., 2)`). -/
def morphRecordedProgress (total : ℕ) : List ℚ :=
  (morphHappyTrace total).map (fun u => round2 u.1)

/-- Monotone non-decrease of a sequence of progress values. -/
def nonDecreasing : List ℚ → Bool
  | [] => true
  | [_] => true
  | a :: b :: t => decide (a ≤ b) && nonDecreasing (b :: t)

theorem nonDecreasing_append_false (a b : ℚ) (l2 : List ℚ) (hba : b < a) :
    ∀ l1 : List ℚ, nonDecreasing (l1 ++ a :: b :: l2) = false := by
  intro l1
  induction l1 with
  | nil =>
    simp only [List.nil_append, nonDecreasing, Bool.and_eq_false_iff]
    left
    simpa using not_le.mpr hba
  | cons x t ih =>
    cases t with
    | nil =>
      have hd : decide (a ≤ b) = false := by simpa using not_le.mpr hba
      simp [nonDecreasing, hd]
    | cons y t' =>
      have hinner : nonDecreasing ((y :: t') ++ a :: b :: l2) = false := ih
      simp only [List.cons_append] at hinner ⊢
      simp only [nonDecreasing, hinner, Bool.and_false]

set_option maxRecDepth 4000 in
/-- C3: the happy-path progress sequence is NOT monotonically
non-decreasing for long videos.  With 500 frames the code records 1.0 at
the very first frame (line 981) and then (5/500)*95 = 0.95 at frame 5
(line 1123): the sequence goes 0, 0, 1, 0.95, ... — evaluating the
embedded trace at the failing input (the final recorded value of the
completed job is still 100, the half of the claim that does hold). -/
theorem c3_progress_not_monotone :
    nonDecreasing (morphRecordedProgress 500) = false ∧
    (morphRecordedProgress 500).getLast? = some 100 := by
  have hdec : morphRecordedProgress 500 =
      [0, 0] ++ (1 : ℚ) :: (19 / 20 : ℚ) ::
        ((((List.range' 5 495).map (frameUpdates 500)).flatten ++
          [((99 : ℚ), "encoding"), ((100 : ℚ), "completed")]).map
            (fun u => round2 u.1)) := by
    rw [morphRecordedProgress, morphHappyTrace,
      show List.range 500 = [0, 1, 2, 3, 4] ++ List.range' 5 495 from by
        decide]
    simp only [List.map_append, List.map_cons, List.map_nil,
      List.flatten_append, List.flatten_cons, List.flatten_nil,
      List.cons_append, List.nil_append, List.append_assoc]
    norm_num [frameUpdates, round2, round_half_even, ratFloor, Int.fdiv]
  constructor
  · rw [hdec]
    exact nonDecreasing_append_false 1 (19 / 20) _ (by norm_num) [0, 0]
  · rw [hdec]
    have h100 : round2 100 = 100 := by
      norm_num [round2, round_half_even, ratFloor, Int.fdiv]
    rw [show (((((List.range' 5 495).map (frameUpdates 500)).flatten ++
        [((99 : ℚ), "encoding"), ((100 : ℚ), "completed")]).map
          (fun u => round2 u.1))) =
        ((((List.range' 5 495).map (frameUpdates 500)).flatten.map
          (fun u => round2 u.1)) ++ [round2 99] ++ [round2 100]) from by
      simp]
    rw [show ([0, 0] ++ (1 : ℚ) :: (19 / 20 : ℚ) ::
        ((((List.range' 5 495).map (frameUpdates 500)).flatten.map
          (fun u => round2 u.1)) ++ [round2 99] ++ [round2 100])) =
        (([0, 0] ++ (1 : ℚ) :: (19 / 20 : ℚ) ::
          ((((List.range' 5 495).map (frameUpdates 500)).flatten.map
            (fun u => round2 u.1)) ++ [round2 99])) ++ [round2 100]) from by
      simp]
    rw [List.getLast?_concat, h100]

/-! ## Worker model for `_do_swap` (lines 840–1182)

The body of `_do_swap` is flattened to its store-visible atomic steps:
external collaborator calls are no-ops on the store, the frames
directory creation (line 936) sets `allocated`, progress writes call
`update_job_progress`.  A run executes either all steps, or a prefix
followed by the `except` handler (lines 1175–1178); the `finally` block
(lines 1179–1182) removes the frames directory exactly when it was
created. -/

/-- Worker-visible state: the shared job map and whether the temporary
frames directory currently exists. -/
structure WState where
  jobs : List (String × JobRecord)
  allocated : Bool

/-- The atomic steps of `_do_swap`'s happy path, in program order:
model/source-face setup (store no-op), `frames_dir.mkdir`, the
"processing" reset, the frame-loop progress writes, "encoding" at 99,
the external ffmpeg call, "completed" at 100. -/
def doSwapSteps (job_id : String) (total : ℕ) : List (WState → WState) :=
  [fun s => s,
   fun s => { s with allocated := true },
   fun s =>
     { s with jobs := update_job_progress s.jobs job_id 0 "processing" none }]
  ++ ((List.range total).map (frameUpdates total)).flatten.map
    (fun u => fun s =>
      { s with jobs := update_job_progress s.jobs job_id u.1 u.2 none })
  ++ [fun s =>
        { s with jobs := update_job_progress s.jobs job_id 99 "encoding" none },
      fun s => s,
      fun s =>
        let r := update_job_progress s.jobs job_id 100 "completed"
          (some (JobResult.payload "output_path"))
        { s with jobs := r }]

/-- Outcome of one `_do_swap` run: the job map, whether the frames
directory was created, and whether it was removed by `finally`. -/
structure RunResult where
  jobs : List (String × JobRecord)
  allocated : Bool
  removed : Bool

/-- One run of `_do_swap`: either the whole step list executes, or
(fault = `some (n, msg)`) an exception with message `msg` interrupts
after `n` steps and the top-level `except` writes the terminal record
`(0, "failed", {"error": msg})`; then `finally` removes the frames
directory iff it exists. -/
def runDoSwap (job_id : String) (total : ℕ) (fault : Option (ℕ × String))
    (jobs0 : List (String × JobRecord)) : RunResult :=
  let s1 : WState :=
    match fault with
    | none => (doSwapSteps job_id total).foldl (fun s f => f s) ⟨jobs0, false⟩
    | some (n, msg) =>
      let sPre := ((doSwapSteps job_id total).take n).foldl
        (fun s f => f s) ⟨jobs0, false⟩
      let r := update_job_progress sPre.jobs job_id 0 "failed"
        (some (JobResult.errmsg msg))
      { sPre with jobs := r }
  ⟨s1.jobs, s1.allocated, s1.allocated⟩

theorem doSwapSteps_other (job_id : String) (total : ℕ)
    (f : WState → WState) (hf : f ∈ doSwapSteps job_id total) (s : WState)
    (other : String) (ho : other ≠ job_id) :
    lookupA (f s).jobs other = lookupA s.jobs other := by
  have hins : ∀ (p : ℚ) (st : String) (r : Option JobResult),
      lookupA (update_job_progress s.jobs job_id p st r) other =
        lookupA s.jobs other := by
    intro p st r
    exact lookupA_insertA_ne _ _ _ _ ho
  rcases List.mem_append.mp hf with h1 | h1
  · rcases List.mem_append.mp h1 with h2 | h2
    · rcases List.mem_cons.mp h2 with h3 | h3
      · rw [h3]
      · rcases List.mem_cons.mp h3 with h4 | h4
        · rw [h4]
        · rcases List.mem_cons.mp h4 with h5 | h5
          · rw [h5]; exact hins 0 "processing" none
          · simp at h5
    · rcases List.mem_map.mp h2 with ⟨u, _, hu⟩
      rw [← hu]
      exact hins u.1 u.2 none
  · rcases List.mem_cons.mp h1 with h2 | h2
    · rw [h2]; exact hins 99 "encoding" none
    · rcases List.mem_cons.mp h2 with h3 | h3
      · rw [h3]
      · rcases List.mem_cons.mp h3 with h4 | h4
        · rw [h4]; exact hins 100 "completed" _
        · simp at h4

theorem foldl_steps_other (other : String)
    (l : List (WState → WState))
    (hl : ∀ f ∈ l, ∀ s : WState,
      lookupA (f s).jobs other = lookupA s.jobs other) :
    ∀ s : WState,
    lookupA (l.foldl (fun s f => f s) s).jobs other = lookupA s.jobs other := by
  induction l with
  | nil => intro s; rfl
  | cons f t ih =>
    intro s
    rw [List.foldl_cons,
      ih (fun g hg => hl g (List.mem_cons_of_mem _ hg)),
      hl f (List.mem_cons_self _ _)]

/-- C9: an exception at ANY point of a job's execution is converted by
the top-level handler into a terminal "failed" record carrying the
message; the temporary frames directory, if created, is removed on both
the failing and the successful exit path; and no other job's record is
touched by either run. -/
theorem c9_failure_handling (job_id other msg : String) (total n : ℕ)
    (jobs0 : List (String × JobRecord)) (h : other ≠ job_id) :
    lookupA (runDoSwap job_id total (some (n, msg)) jobs0).jobs job_id =
      some ⟨0, "failed", some (JobResult.errmsg msg)⟩ ∧
    ((runDoSwap job_id total (some (n, msg)) jobs0).allocated = true →
      (runDoSwap job_id total (some (n, msg)) jobs0).removed = true) ∧
    ((runDoSwap job_id total none jobs0).allocated = true →
      (runDoSwap job_id total none jobs0).removed = true) ∧
    lookupA (runDoSwap job_id total (some (n, msg)) jobs0).jobs other =
      lookupA jobs0 other ∧
    lookupA (runDoSwap job_id total none jobs0).jobs other =
      lookupA jobs0 other := by
  have h0 : round2 0 = 0 := by
    norm_num [round2, round_half_even, ratFloor]
  refine ⟨?_, id, id, ?_, ?_⟩
  · show lookupA (update_job_progress _ job_id 0 "failed" _) job_id = _
    rw [update_job_progress, lookupA_insertA_self, h0]
  · show lookupA (update_job_progress _ job_id 0 "failed" _) other = _
    rw [update_job_progress, lookupA_insertA_ne _ _ _ _ h]
    exact foldl_steps_other other _
      (fun f hf s => doSwapSteps_other job_id total f
        (List.take_subset n _ hf) s other h) _
  · exact foldl_steps_other other _
      (fun f hf s => doSwapSteps_other job_id total f hf s other h) _

/-- C9 witness: the failure-handling law at a concrete faulted run
(total 3, fault after 4 steps) next to the successful run. -/
theorem c9_failure_handling_witness :
    lookupA (runDoSwap "a" 3 (some (4, "boom")) []).jobs "a" =
      some ⟨0, "failed", some (JobResult.errmsg "boom")⟩ ∧
    ((runDoSwap "a" 3 (some (4, "boom")) []).allocated = true →
      (runDoSwap "a" 3 (some (4, "boom")) []).removed = true) ∧
    ((runDoSwap "a" 3 none []).allocated = true →
      (runDoSwap "a" 3 none []).removed = true) ∧
    lookupA (runDoSwap "a" 3 (some (4, "boom")) []).jobs "b" =
      lookupA [] "b" ∧
    lookupA (runDoSwap "a" 3 none []).jobs "b" = lookupA [] "b" :=
  c9_failure_handling "a" "b" "boom" 3 4 [] (by decide)

/-- C10: a failure discards previously reported progress.  With 10
frames, after the 95%-progress write (6 executed steps) the record
shows 95; an exception there yields the terminal record with progress 0
and status "failed" — a poller that saw 95 later observes 0. -/
theorem c10_failure_resets_progress :
    lookupA (((doSwapSteps "j" 10).take 6).foldl (fun s f => f s)
      (⟨[], false⟩ : WState)).jobs "j" =
      some (⟨95, "processing", none⟩ : JobRecord) ∧
    lookupA (runDoSwap "j" 10 (some (6, "boom")) []).jobs "j" =
      some ⟨0, "failed", some (JobResult.errmsg "boom")⟩ := by
  constructor
  · norm_num [doSwapSteps, frameUpdates, update_job_progress, insertA,
      lookupA, round2, round_half_even, ratFloor, Int.fdiv,
      show List.range 10 = [0,1,2,3,4,5,6,7,8,9] from by decide]
  · norm_num [runDoSwap, doSwapSteps, frameUpdates, update_job_progress,
      insertA, lookupA, round2, round_half_even, ratFloor, Int.fdiv,
      show List.range 10 = [0,1,2,3,4,5,6,7,8,9] from by decide]

/-- C4: polling an unknown id yields not-found and leaves the store
unchanged; submitting returns the job id immediately, and polling right
after submission — before the background worker has run — yields the
initial record with progress 0 and the non-terminal status
"starting". -/
theorem c4_polling_semantics (jobs : List (String × JobRecord))
    (jid jid' : String) (h : jid' ∉ jobs.map Prod.fst) :
    ((get_progress jobs jid').1 = jobs ∧
      (get_progress jobs jid').2 = PollResult.notFound) ∧
    ((swap jobs jid).2.1 = jid ∧
      (get_progress (swap jobs jid).1 jid).2 =
        PollResult.found ⟨0, "starting", none⟩ ∧
      "starting" ∉ terminalStatuses) := by
  have h0 : round2 0 = 0 := by
    norm_num [round2, round_half_even, ratFloor]
  refine ⟨⟨rfl, ?_⟩, rfl, ?_, by decide⟩
  · rw [get_progress]
    simp only [lookupA_eq_none _ _ h]
  · show (get_progress (update_job_progress jobs jid 0 "starting" none)
      jid).2 = _
    rw [get_progress]
    simp only [update_job_progress, lookupA_insertA_self, h0]

/-- C4 witness: the polling laws at a concrete store holding one record
under id "x", polling the unknown id "y" and submitting "z". -/
theorem c4_polling_semantics_witness :
    ((get_progress [("x", ⟨50, "processing", none⟩)] "y").1 =
        [("x", ⟨50, "processing", none⟩)] ∧
      (get_progress [("x", ⟨50, "processing", none⟩)] "y").2 =
        PollResult.notFound) ∧
    ((swap [("x", ⟨50, "processing", none⟩)] "z").2.1 = "z" ∧
      (get_progress (swap [("x", ⟨50, "processing", none⟩)] "z").1 "z").2 =
        PollResult.found ⟨0, "starting", none⟩ ∧
      "starting" ∉ terminalStatuses) :=
  c4_polling_semantics [("x", ⟨50, "processing", none⟩)] "z" "y" (by decide)

end Vidzaro
